import Mathlib

/-!
Shallow embedding of the ordering/checkpoint core of the repository:

* `ClientSequenceNumberManager` (src/unnamed/part_001): an indexed
  min-priority tracker of per-client sequencing state, backed by a
  `Map<string, IHeapNode<IClientSequenceNumber>>` plus a `Heap` keyed by
  `referenceSequenceNumber`.
* `createDeliCheckpointManagerFromCollection` (src/unnamed/part_000): the
  checkpoint write/delete adapter over a checkpoint service.

JavaScript `Map` is modelled as an association list in insertion order
(`Map.set` on a fresh key appends, on a present key replaces in place;
`Map.delete` removes the entry).  The mutable heap nodes shared between the
map and the heap are modelled by keeping a single association list: the
source pairs every `clientNodeMap.set` with a `clientSeqNumbers.add` and
every `clientNodeMap.delete` with a `clientSeqNumbers.remove`, so the heap's
multiset of values always coincides with the map's values.
-/

/-- JavaScript runtime values, used for the untyped `serverMetadata: any`
parameter of `upsertClient`.  `truthy` is JavaScript truthiness. -/
inductive JsValue where
  | undef
  | null
  | bool (b : Bool)
  | num (n : Int)
  | str (s : String)
  | obj (id : Nat)
deriving DecidableEq

/-- JavaScript truthiness of a value: `undefined`, `null`, `false`, `0` and
the empty string are falsy, everything else is truthy. -/
def JsValue.truthy : JsValue → Bool
  | .undef => false
  | .null => false
  | .bool b => b
  | .num n => n != 0
  | .str s => s != ""
  | .obj _ => true

/-- Per-client tracked sequencing state (`IClientSequenceNumber` from
server-services-core), with the fields used by src/unnamed/part_001. -/
structure IClientSequenceNumber where
  canEvict : Bool
  clientId : String
  clientSequenceNumber : Int
  lastUpdate : Int
  nack : Bool
  referenceSequenceNumber : Int
  scopes : List String
  serverMetadata : JsValue
deriving DecidableEq

/-- Association-list lookup; the model of `Map.get` (`Map.prototype.get`
returns the value of the single entry for the key, `undefined` if absent). -/
def mapGet {κ α : Type} [DecidableEq κ] : List (κ × α) → κ → Option α
  | [], _ => none
  | (k0, v0) :: rest, k => if k0 = k then some v0 else mapGet rest k

/-- Association-list update; the model of `Map.set`: replaces the entry for a
present key in place, appends a new entry for a fresh key. -/
def mapSet {κ α : Type} [DecidableEq κ] : List (κ × α) → κ → α → List (κ × α)
  | [], k, v => [(k, v)]
  | (k0, v0) :: rest, k, v =>
    if k0 = k then (k, v) :: rest else (k0, v0) :: mapSet rest k v

/-- Association-list removal; the model of `Map.delete`: removes the entry for
the key if present. -/
def mapDelete {κ α : Type} [DecidableEq κ] : List (κ × α) → κ → List (κ × α)
  | [], _ => []
  | (k0, v0) :: rest, k => if k0 = k then rest else (k0, v0) :: mapDelete rest k

/-- The keys of an association list, in insertion order. -/
def mapKeys {κ α : Type} (l : List (κ × α)) : List κ := l.map Prod.fst

/-- State of `ClientSequenceNumberManager`: the `clientNodeMap` in insertion
order.  The heap `clientSeqNumbers` holds exactly these values (see the module
comment), so it is not represented separately. -/
structure ClientSequenceNumberManager where
  clientNodeMap : List (String × IClientSequenceNumber)
deriving DecidableEq

namespace ClientSequenceNumberManager

/-- A manager as freshly constructed: both containers empty. -/
def emptyManager : ClientSequenceNumberManager := ⟨[]⟩

/-- Model of `has(clientId)`: `clientNodeMap.has(clientId)`. -/
def has (m : ClientSequenceNumberManager) (clientId : String) : Bool :=
  (mapGet m.clientNodeMap clientId).isSome

/-- Model of `get(clientId)`: looks up the node and returns its value. -/
def get (m : ClientSequenceNumberManager) (clientId : String) :
    Option IClientSequenceNumber :=
  mapGet m.clientNodeMap clientId

/-- Model of `count()`: `clientNodeMap.size`. -/
def count (m : ClientSequenceNumberManager) : Nat :=
  m.clientNodeMap.length

/-- The multiset of tracked client states (the heap's contents). -/
def values (m : ClientSequenceNumberManager) : List IClientSequenceNumber :=
  m.clientNodeMap.map Prod.snd

/-- Modelled from the spec: the `Heap` class from the common-utils package is
not among the sources here.  Per the spec, the priority structure orders
entries by `referenceSequenceNumber` ascending (comparator
`a.referenceSequenceNumber - b.referenceSequenceNumber`) and `peek` returns
the entry with the minimum `referenceSequenceNumber`, ties broken by
insertion encounter order. -/
def heapPeek : List IClientSequenceNumber → Option IClientSequenceNumber
  | [] => none
  | c :: cs =>
    some (cs.foldl
      (fun best x =>
        if x.referenceSequenceNumber < best.referenceSequenceNumber then x
        else best)
      c)

/-- Model of `peek()`: `clientSeqNumbers.peek()`, returning the node's value. -/
def peek (m : ClientSequenceNumberManager) : Option IClientSequenceNumber :=
  heapPeek (values m)

/-- Model of `upsertClient`.  In the source, `scopes` defaults to `[]`, `nack`
to `false` and `serverMetadata` to `undefined`; all arguments are written
explicitly here.  If the client is already tracked, the fields
`referenceSequenceNumber`, `clientSequenceNumber`, `lastUpdate` and `nack` of
the shared node are overwritten, `serverMetadata` only when the supplied value
is truthy (`if (serverMetadata)`), and the heap is re-sifted
(`clientSeqNumbers.update`, a no-op on the contents).  Otherwise a new node is
added to the heap and the map, and the call returns `true`. -/
def upsertClient (m : ClientSequenceNumberManager) (clientId : String)
    (clientSequenceNumber referenceSequenceNumber timestamp : Int)
    (canEvict : Bool) (scopes : List String) (nack : Bool)
    (serverMetadata : JsValue) : Bool × ClientSequenceNumberManager :=
  match mapGet m.clientNodeMap clientId with
  | some client =>
    (false,
      ⟨mapSet m.clientNodeMap clientId
        { client with
          referenceSequenceNumber := referenceSequenceNumber
          clientSequenceNumber := clientSequenceNumber
          lastUpdate := timestamp
          nack := nack
          serverMetadata :=
            if serverMetadata.truthy then serverMetadata
            else client.serverMetadata }⟩)
  | none =>
    (true,
      ⟨mapSet m.clientNodeMap clientId
        { canEvict := canEvict
          clientId := clientId
          clientSequenceNumber := clientSequenceNumber
          lastUpdate := timestamp
          nack := nack
          referenceSequenceNumber := referenceSequenceNumber
          scopes := scopes
          serverMetadata := serverMetadata }⟩)

/-- Model of `removeClient`: returns `false` untouched when the client is not
tracked, otherwise removes the node from the heap and the map. -/
def removeClient (m : ClientSequenceNumberManager) (clientId : String) :
    Bool × ClientSequenceNumberManager :=
  match mapGet m.clientNodeMap clientId with
  | none => (false, m)
  | some _ => (true, ⟨mapDelete m.clientNodeMap clientId⟩)

/-- Model of `getMinimumSequenceNumber()`: when the heap is non-empty, the
reference sequence number of the peeked node, else `-1`.  (The `none` branch
is unreachable under the guard; the source dereferences `peek()` directly.) -/
def getMinimumSequenceNumber (m : ClientSequenceNumberManager) : Int :=
  if 0 < (values m).length then
    match heapPeek (values m) with
    | some client => client.referenceSequenceNumber
    | none => -1
  else -1

/-- Model of `cloneValues()` at the level of values: one copy of each tracked
state, in map insertion order.  Aliasing between the copies and the internal
nodes is analysed in the object-store model below. -/
def cloneValues (m : ClientSequenceNumberManager) :
    List IClientSequenceNumber :=
  values m

end ClientSequenceNumberManager

/-- One external call to the tracker: an `upsertClient` or a `removeClient`. -/
inductive TrackerOp where
  | upsert (clientId : String)
      (clientSequenceNumber referenceSequenceNumber timestamp : Int)
      (canEvict : Bool) (scopes : List String) (nack : Bool)
      (serverMetadata : JsValue)
  | remove (clientId : String)

/-- Applies one tracker call, discarding the boolean result. -/
def applyOp (m : ClientSequenceNumberManager) : TrackerOp →
    ClientSequenceNumberManager
  | .upsert cid csn rsn ts ce sc nk md =>
    (m.upsertClient cid csn rsn ts ce sc nk md).2
  | .remove cid => (m.removeClient cid).2

/-- Applies a sequence of tracker calls in order. -/
def applyOps (m : ClientSequenceNumberManager) :
    List TrackerOp → ClientSequenceNumberManager
  | [] => m
  | op :: rest => applyOps (applyOp m op) rest

/-- The arguments of one `upsertClient` call. -/
structure UpsertArgs where
  clientId : String
  clientSequenceNumber : Int
  referenceSequenceNumber : Int
  timestamp : Int
  canEvict : Bool
  scopes : List String
  nack : Bool
  serverMetadata : JsValue

/-- Applies one `upsertClient` call from its packaged arguments. -/
def applyUpsert (m : ClientSequenceNumberManager) (c : UpsertArgs) :
    ClientSequenceNumberManager :=
  (m.upsertClient c.clientId c.clientSequenceNumber c.referenceSequenceNumber
    c.timestamp c.canEvict c.scopes c.nack c.serverMetadata).2

/-- Applies a sequence of `upsertClient` calls in order. -/
def applyUpserts (m : ClientSequenceNumberManager) :
    List UpsertArgs → ClientSequenceNumberManager
  | [] => m
  | c :: rest => applyUpserts (applyUpsert m c) rest

/-- The reference sequence numbers of the currently tracked clients. -/
def trackedRefSeqNumbers (m : ClientSequenceNumberManager) : List Int :=
  (m.values).map IClientSequenceNumber.referenceSequenceNumber

/-- Minimum of a list of integers, with `-1` for the empty list — the
spec-side description of `getMinimumSequenceNumber`. -/
def intMinList : List Int → Int
  | [] => -1
  | x :: xs => xs.foldl min x

/-- Every manager state whose key list has no duplicates. -/
def nodupKeys (m : ClientSequenceNumberManager) : Prop :=
  (mapKeys m.clientNodeMap).Nodup

/-!
Checkpoint side (src/unnamed/part_000).  The payload and service types come
from packages outside the given sources; they are modelled from the spec just
deeply enough to carry the claims, while `createDeliCheckpointManagerFromCollection`
itself follows the source.
-/

/-- Modelled from the spec: `CheckpointReason` lives in `../utils`, outside the
given sources; the spec enumerates the triggers as routine batch boundary,
idle flush, client disconnect, shutdown and manual. -/
inductive CheckpointReason where
  | batchBoundary
  | idleFlush
  | clientDisconnect
  | shutdown
  | manual
deriving DecidableEq

/-- Modelled from the spec: `IQueuedMessage` is an opaque position token in the
backing log, treated as an opaque orderable value, never interpreted. -/
structure IQueuedMessage where
  offset : Int
deriving DecidableEq

/-- Modelled from the spec: `IDeliState`, the serializable sequencing snapshot
— the current MSN, the global sequence counter and the client roster. -/
structure IDeliState where
  msn : Int
  globalSequenceNumber : Int
  clients : List IClientSequenceNumber
deriving DecidableEq

/-- The `ICheckpointParams` interface of src/unnamed/part_000: trigger reason,
deli state, the two messages to checkpoint, and the optional `clear` flag. -/
structure ICheckpointParams where
  reason : CheckpointReason
  deliState : IDeliState
  deliCheckpointMessage : IQueuedMessage
  kafkaCheckpointMessage : Option IQueuedMessage
  clear : Option Bool
deriving DecidableEq

/-- One call into the checkpoint service (`ICheckpointService`), carrying every
argument the adapter passes to it. -/
inductive StorageCall where
  | writeCheckpointToCollection (documentId tenantId serviceName : String)
      (checkpoint : IDeliState) (isLocal : Bool)
  | removeCheckpointFromCollection (documentId tenantId serviceName : String)
      (isLocal : Bool)
deriving DecidableEq

/-- A transient storage failure surfaced by the checkpoint service. -/
structure CheckpointError where
  message : String
deriving DecidableEq

/-- The `writeCheckpoint` member built by
`createDeliCheckpointManagerFromCollection`, as the storage call it issues.
The implementing lambda binds only `checkpoint` and `isLocal`; the `reason`
argument of the `IDeliCheckpointManager.writeCheckpoint` signature is dropped,
and the call forwards `(documentId, tenantId, "deli", checkpoint, isLocal)`. -/
def deliWriteCheckpoint (tenantId documentId : String)
    (checkpoint : IDeliState) (isLocal : Bool) (reason : CheckpointReason) :
    StorageCall :=
  StorageCall.writeCheckpointToCollection documentId tenantId "deli"
    checkpoint isLocal

/-- The `deleteCheckpoint` member built by
`createDeliCheckpointManagerFromCollection`, as the storage call it issues:
`removeCheckpointFromCollection(documentId, tenantId, "deli", isLocal)`;
the `checkpointParams` argument is never read. -/
def deliDeleteCheckpoint (tenantId documentId : String)
    (checkpointParams : ICheckpointParams) (isLocal : Bool) : StorageCall :=
  StorageCall.removeCheckpointFromCollection documentId tenantId "deli" isLocal

/-- The result of `writeCheckpoint` when the checkpoint service responds
according to `svc`: the async lambda returns the service's promise directly
(no catch), so its outcome is exactly the service's outcome on the issued
call. -/
def deliWriteCheckpointRun
    (svc : StorageCall → Except CheckpointError Unit)
    (tenantId documentId : String) (checkpoint : IDeliState)
    (isLocal : Bool) (reason : CheckpointReason) :
    Except CheckpointError Unit :=
  svc (deliWriteCheckpoint tenantId documentId checkpoint isLocal reason)

/-!
Object-store model of the tracker, for the aliasing behaviour of
`cloneValues()`.  JavaScript objects live on a heap and variables hold
references: here records live in `store` at `Nat` addresses, `clientNodeMap`
maps client ids to the addresses of their (shared map/heap) nodes' values, and
`next` is the next fresh address.  `cloneValues` pushes `{ ...source }` — a
fresh object with the same fields — for every tracked node, so it allocates a
new address per entry.
-/

/-- Tracker state with explicit object identities. -/
structure ManagerWithStore where
  store : List (Nat × IClientSequenceNumber)
  clientNodeMap : List (String × Nat)
  next : Nat
deriving DecidableEq

/-- Loop of `cloneValues` over the map entries: each iteration reads the
entry's record and appends a fresh copy of it (`clients.push({ ...source })`),
returning the addresses of the copies in order. -/
def cloneLoop : List (String × Nat) → List (Nat × IClientSequenceNumber) →
    Nat → List Nat × List (Nat × IClientSequenceNumber) × Nat
  | [], store, next => ([], store, next)
  | (_, a) :: rest, store, next =>
    match mapGet store a with
    | none => cloneLoop rest store next
    | some v =>
      match cloneLoop rest (store ++ [(next, v)]) (next + 1) with
      | (addrs, store1, next1) => (next :: addrs, store1, next1)

/-- Model of `cloneValues()` in the object-store model: the addresses of the
freshly allocated copies, and the state afterwards (the tracker's own map is
untouched). -/
def cloneValuesA (s : ManagerWithStore) : List Nat × ManagerWithStore :=
  match cloneLoop s.clientNodeMap s.store s.next with
  | (addrs, store1, next1) => (addrs, ⟨store1, s.clientNodeMap, next1⟩)

/-- Model of `get(clientId)` in the object-store model: follow the map to the
node's address and read the record there. -/
def getA (s : ManagerWithStore) (clientId : String) :
    Option IClientSequenceNumber :=
  (mapGet s.clientNodeMap clientId).bind (fun a => mapGet s.store a)

/-- The tracked records, read through the store in map order. -/
def valuesA (s : ManagerWithStore) : List IClientSequenceNumber :=
  s.clientNodeMap.filterMap (fun p => mapGet s.store p.2)

/-- Model of `peek()` in the object-store model. -/
def peekA (s : ManagerWithStore) : Option IClientSequenceNumber :=
  ClientSequenceNumberManager.heapPeek (valuesA s)

/-- Model of `getMinimumSequenceNumber()` in the object-store model. -/
def getMinA (s : ManagerWithStore) : Int :=
  if 0 < (valuesA s).length then
    match peekA s with
    | some client => client.referenceSequenceNumber
    | none => -1
  else -1

/-- Mutation of the object at address `a` (the model of assigning through a
reference obtained from the `cloneValues` result). -/
def writeAddr (s : ManagerWithStore) (a : Nat) (v : IClientSequenceNumber) :
    ManagerWithStore :=
  ⟨mapSet s.store a v, s.clientNodeMap, s.next⟩

/-- Well-formed object-store states: every node address held by the map is
below the allocation frontier and actually allocated. -/
def WFStore (s : ManagerWithStore) : Prop :=
  ∀ p ∈ s.clientNodeMap, p.2 < s.next ∧ (mapGet s.store p.2).isSome = true

/-!
Concrete inputs used to witness the theorems below on closed instances.
-/

/-- The client state created by `upsertClient("X", 1, 0, 100, true)`. -/
def demoEntry : IClientSequenceNumber :=
  { canEvict := true, clientId := "X", clientSequenceNumber := 1,
    lastUpdate := 100, nack := false, referenceSequenceNumber := 0,
    scopes := [], serverMetadata := .undef }

/-- A second client state, used as the payload of a mutation. -/
def demoEntry2 : IClientSequenceNumber :=
  { canEvict := true, clientId := "Y", clientSequenceNumber := 2,
    lastUpdate := 200, nack := false, referenceSequenceNumber := 7,
    scopes := [], serverMetadata := .undef }

/-- A tracker with the single client "X" (inserted by one `upsertClient`). -/
def demoManagerX : ClientSequenceNumberManager :=
  (ClientSequenceNumberManager.emptyManager.upsertClient "X" 1 0 100 true []
    false .undef).2

/-- Two `upsertClient` calls with distinct client ids. -/
def demoCalls : List UpsertArgs :=
  [{ clientId := "A", clientSequenceNumber := 1, referenceSequenceNumber := 5,
     timestamp := 100, canEvict := true, scopes := [], nack := false,
     serverMetadata := .undef },
   { clientId := "B", clientSequenceNumber := 1, referenceSequenceNumber := 2,
     timestamp := 101, canEvict := true, scopes := [], nack := false,
     serverMetadata := .undef }]

/-- Tracker after inserting "X" with scopes `["a"]`. -/
def scopesFirst : ClientSequenceNumberManager :=
  (ClientSequenceNumberManager.emptyManager.upsertClient "X" 1 0 100 true
    ["a"] false .undef).2

/-- Tracker after re-upserting the tracked "X" with scopes `["b"]`. -/
def scopesSecond : ClientSequenceNumberManager :=
  (scopesFirst.upsertClient "X" 2 3 101 true ["b"] false .undef).2

/-- A concrete checkpoint payload. -/
def demoDeliState : IDeliState := { msn := 0, globalSequenceNumber := 0, clients := [] }

/-- An object-store tracker holding the single client "X" at address 0. -/
def demoStore : ManagerWithStore :=
  { store := [(0, demoEntry)], clientNodeMap := [("X", 0)], next := 1 }

/-!
Helper lemmas about the association-list model of `Map`.
-/

theorem mapGet_mapSet_self {κ α : Type} [DecidableEq κ]
    (l : List (κ × α)) (k : κ) (v : α) :
    mapGet (mapSet l k v) k = some v := by
  induction l with
  | nil => simp [mapSet, mapGet]
  | cons p rest ih =>
    obtain ⟨k0, v0⟩ := p
    by_cases h : k0 = k
    · simp [mapSet, mapGet, h]
    · simp [mapSet, mapGet, h, ih]

theorem mapGet_mapSet_ne {κ α : Type} [DecidableEq κ]
    (l : List (κ × α)) (k k' : κ) (v : α) (hne : k' ≠ k) :
    mapGet (mapSet l k v) k' = mapGet l k' := by
  have hne' : ¬(k = k') := fun h0 => hne h0.symm
  induction l with
  | nil => simp [mapSet, mapGet, hne']
  | cons p rest ih =>
    obtain ⟨k0, v0⟩ := p
    by_cases h : k0 = k
    · subst h
      simp [mapSet, mapGet, hne']
    · simp [mapSet, mapGet, h, ih]

theorem mapGet_mapDelete_ne {κ α : Type} [DecidableEq κ]
    (l : List (κ × α)) (k k' : κ) (hne : k' ≠ k) :
    mapGet (mapDelete l k) k' = mapGet l k' := by
  have hne' : ¬(k = k') := fun h0 => hne h0.symm
  induction l with
  | nil => simp [mapDelete, mapGet]
  | cons p rest ih =>
    obtain ⟨k0, v0⟩ := p
    by_cases h : k0 = k
    · subst h
      simp [mapDelete, mapGet, hne']
    · simp [mapDelete, mapGet, h, ih]

theorem mapKeys_nil {κ α : Type} : mapKeys ([] : List (κ × α)) = [] := rfl

theorem mapKeys_cons {κ α : Type} (p : κ × α) (l : List (κ × α)) :
    mapKeys (p :: l) = p.1 :: mapKeys l := rfl

theorem mapGet_eq_none_iff {κ α : Type} [DecidableEq κ]
    (l : List (κ × α)) (k : κ) :
    mapGet l k = none ↔ k ∉ mapKeys l := by
  induction l with
  | nil => simp [mapGet, mapKeys_nil]
  | cons p rest ih =>
    obtain ⟨k0, v0⟩ := p
    by_cases h : k0 = k
    · subst h
      simp [mapGet, mapKeys_cons]
    · have h' : ¬(k = k0) := fun h0 => h h0.symm
      rw [mapKeys_cons, List.mem_cons]
      simp only [mapGet, if_neg h]
      rw [ih]
      simp [h']

theorem mapGet_isSome_iff {κ α : Type} [DecidableEq κ]
    (l : List (κ × α)) (k : κ) :
    (mapGet l k).isSome = true ↔ k ∈ mapKeys l := by
  rcases h : mapGet l k with _ | v
  · rw [mapGet_eq_none_iff] at h
    simp [h]
  · have : k ∈ mapKeys l := by
      by_contra hmem
      rw [← mapGet_eq_none_iff l k] at hmem
      rw [h] at hmem
      exact Option.noConfusion hmem
    simp [this]

theorem mapKeys_mapSet_of_mem {κ α : Type} [DecidableEq κ]
    (l : List (κ × α)) (k : κ) (v : α) (hmem : k ∈ mapKeys l) :
    mapKeys (mapSet l k v) = mapKeys l := by
  induction l with
  | nil => simp [mapKeys_nil] at hmem
  | cons p rest ih =>
    obtain ⟨k0, v0⟩ := p
    by_cases h : k0 = k
    · subst h
      simp [mapSet, mapKeys_cons]
    · have hmem' : k ∈ mapKeys rest := by
        rw [mapKeys_cons, List.mem_cons] at hmem
        rcases hmem with h0 | h0
        · exact absurd h0.symm h
        · exact h0
      have step : mapSet ((k0, v0) :: rest) k v = (k0, v0) :: mapSet rest k v := by
        simp [mapSet, h]
      rw [step, mapKeys_cons, mapKeys_cons, ih hmem']

theorem mapKeys_mapSet_of_not_mem {κ α : Type} [DecidableEq κ]
    (l : List (κ × α)) (k : κ) (v : α) (hmem : k ∉ mapKeys l) :
    mapKeys (mapSet l k v) = mapKeys l ++ [k] := by
  induction l with
  | nil => simp [mapSet, mapKeys_nil, mapKeys_cons]
  | cons p rest ih =>
    obtain ⟨k0, v0⟩ := p
    rw [mapKeys_cons, List.mem_cons] at hmem
    have h : ¬(k0 = k) := fun h0 => hmem (Or.inl h0.symm)
    have hmem' : k ∉ mapKeys rest := fun h0 => hmem (Or.inr h0)
    have step : mapSet ((k0, v0) :: rest) k v = (k0, v0) :: mapSet rest k v := by
      simp [mapSet, h]
    rw [step, mapKeys_cons, mapKeys_cons, ih hmem']
    rfl

theorem mem_mapKeys_mapDelete {κ α : Type} [DecidableEq κ]
    (l : List (κ × α)) (k x : κ) (hx : x ∈ mapKeys (mapDelete l k)) :
    x ∈ mapKeys l := by
  induction l with
  | nil => simpa [mapDelete] using hx
  | cons p rest ih =>
    obtain ⟨k0, v0⟩ := p
    rw [mapKeys_cons, List.mem_cons]
    by_cases h : k0 = k
    · rw [show mapDelete ((k0, v0) :: rest) k = rest by simp [mapDelete, h]] at hx
      exact Or.inr hx
    · rw [show mapDelete ((k0, v0) :: rest) k = (k0, v0) :: mapDelete rest k by
        simp [mapDelete, h], mapKeys_cons, List.mem_cons] at hx
      rcases hx with h0 | h0
      · exact Or.inl h0
      · exact Or.inr (ih h0)

theorem nodup_mapKeys_mapDelete {κ α : Type} [DecidableEq κ]
    (l : List (κ × α)) (k : κ) (hnd : (mapKeys l).Nodup) :
    (mapKeys (mapDelete l k)).Nodup := by
  induction l with
  | nil => simp [mapDelete, mapKeys]
  | cons p rest ih =>
    obtain ⟨k0, v0⟩ := p
    rw [mapKeys_cons, List.nodup_cons] at hnd
    by_cases h : k0 = k
    · rw [show mapDelete ((k0, v0) :: rest) k = rest by simp [mapDelete, h]]
      exact hnd.2
    · have tail := ih hnd.2
      have hk0 : k0 ∉ mapKeys (mapDelete rest k) := fun hmem =>
        hnd.1 (mem_mapKeys_mapDelete rest k k0 hmem)
      rw [show mapDelete ((k0, v0) :: rest) k = (k0, v0) :: mapDelete rest k by
        simp [mapDelete, h], mapKeys_cons, List.nodup_cons]
      exact ⟨hk0, tail⟩

theorem length_mapSet_of_none {κ α : Type} [DecidableEq κ]
    (l : List (κ × α)) (k : κ) (v : α) (h : mapGet l k = none) :
    (mapSet l k v).length = l.length + 1 := by
  induction l with
  | nil => simp [mapSet]
  | cons p rest ih =>
    obtain ⟨k0, v0⟩ := p
    by_cases h0 : k0 = k
    · simp [mapGet, h0] at h
    · simp [mapGet, h0] at h
      simp [mapSet, h0, ih h]

theorem length_mapSet_of_some {κ α : Type} [DecidableEq κ]
    (l : List (κ × α)) (k : κ) (v v0 : α) (h : mapGet l k = some v0) :
    (mapSet l k v).length = l.length := by
  induction l with
  | nil => simp [mapGet] at h
  | cons p rest ih =>
    obtain ⟨k1, v1⟩ := p
    by_cases h0 : k1 = k
    · simp [mapSet, h0]
    · simp [mapGet, h0] at h
      simp [mapSet, h0, ih h]

theorem length_mapDelete_of_some {κ α : Type} [DecidableEq κ]
    (l : List (κ × α)) (k : κ) (v0 : α) (h : mapGet l k = some v0) :
    (mapDelete l k).length + 1 = l.length := by
  induction l with
  | nil => simp [mapGet] at h
  | cons p rest ih =>
    obtain ⟨k1, v1⟩ := p
    by_cases h0 : k1 = k
    · simp [mapDelete, h0]
    · simp [mapGet, h0] at h
      simp [mapDelete, h0, ih h]

theorem mapGet_mapDelete_self {κ α : Type} [DecidableEq κ]
    (l : List (κ × α)) (k : κ) (hnd : (mapKeys l).Nodup) :
    mapGet (mapDelete l k) k = none := by
  induction l with
  | nil => simp [mapDelete, mapGet]
  | cons p rest ih =>
    obtain ⟨k0, v0⟩ := p
    rw [mapKeys_cons, List.nodup_cons] at hnd
    by_cases h : k0 = k
    · subst h
      rw [show mapDelete ((k0, v0) :: rest) k0 = rest by simp [mapDelete]]
      rw [mapGet_eq_none_iff]
      exact hnd.1
    · rw [show mapDelete ((k0, v0) :: rest) k = (k0, v0) :: mapDelete rest k by
        simp [mapDelete, h]]
      simp only [mapGet, if_neg h]
      exact ih hnd.2

theorem mapGet_mem {κ α : Type} [DecidableEq κ]
    (l : List (κ × α)) (k : κ) (v : α) (h : mapGet l k = some v) :
    (k, v) ∈ l := by
  induction l with
  | nil => simp [mapGet] at h
  | cons p rest ih =>
    obtain ⟨k0, v0⟩ := p
    by_cases h0 : k0 = k
    · simp [mapGet, h0] at h
      simp [h0, h]
    · simp [mapGet, h0] at h
      simp [ih h]

theorem mapGet_append_left {κ α : Type} [DecidableEq κ]
    (l1 l2 : List (κ × α)) (k : κ) (v : α) (h : mapGet l1 k = some v) :
    mapGet (l1 ++ l2) k = some v := by
  induction l1 with
  | nil => simp [mapGet] at h
  | cons p rest ih =>
    obtain ⟨k0, v0⟩ := p
    by_cases h0 : k0 = k
    · simp [mapGet, h0] at h ⊢
      exact h
    · simp [mapGet, h0] at h ⊢
      exact ih h

/-!
Lemmas about the heap model and the tracked minimum.
-/

theorem heapPeek_refSeq (c : IClientSequenceNumber)
    (cs : List IClientSequenceNumber) :
    (cs.foldl
      (fun best x =>
        if x.referenceSequenceNumber < best.referenceSequenceNumber then x
        else best)
      c).referenceSequenceNumber
      = cs.foldl (fun a x => min a x.referenceSequenceNumber)
          c.referenceSequenceNumber := by
  induction cs generalizing c with
  | nil => rfl
  | cons x xs ih =>
    simp only [List.foldl_cons]
    rw [ih]
    have hbase :
        (if x.referenceSequenceNumber < c.referenceSequenceNumber then x
          else c).referenceSequenceNumber
          = min c.referenceSequenceNumber x.referenceSequenceNumber := by
      by_cases h : x.referenceSequenceNumber < c.referenceSequenceNumber
      · rw [if_pos h, min_def, if_neg (by omega)]
      · rw [if_neg h, min_def, if_pos (by omega)]
    rw [hbase]

theorem foldl_min_le_base (l : List Int) (b : Int) : l.foldl min b ≤ b := by
  induction l generalizing b with
  | nil => simp
  | cons x xs ih =>
    simp only [List.foldl_cons]
    exact le_trans (ih (min b x)) (min_le_left _ _)

theorem foldl_min_le_mem (l : List Int) (b x : Int) (hx : x ∈ l) :
    l.foldl min b ≤ x := by
  induction l generalizing b with
  | nil => simp at hx
  | cons y ys ih =>
    simp only [List.foldl_cons]
    rcases List.mem_cons.1 hx with rfl | hx'
    · exact le_trans (foldl_min_le_base ys (min b x)) (min_le_right _ _)
    · exact ih (min b y) hx'

theorem foldl_min_mem_or (l : List Int) (b : Int) :
    l.foldl min b = b ∨ l.foldl min b ∈ l := by
  induction l generalizing b with
  | nil => exact Or.inl rfl
  | cons y ys ih =>
    simp only [List.foldl_cons]
    rcases ih (min b y) with h | h
    · rcases min_choice b y with hm | hm
      · exact Or.inl (h.trans hm)
      · exact Or.inr (List.mem_cons.2 (Or.inl (h.trans hm)))
    · exact Or.inr (List.mem_cons.2 (Or.inr h))

/-- The `intMinList` of a non-empty list is a lower bound of its members. -/
theorem intMinList_le (l : List Int) (x : Int) (hx : x ∈ l) :
    intMinList l ≤ x := by
  rcases l with _ | ⟨c, cs⟩
  · simp at hx
  · rcases List.mem_cons.1 hx with rfl | hx'
    · exact foldl_min_le_base cs x
    · exact foldl_min_le_mem cs c x hx'

/-- The `intMinList` of a non-empty list is one of its members. -/
theorem intMinList_mem (l : List Int) (h : l ≠ []) : intMinList l ∈ l := by
  rcases l with _ | ⟨c, cs⟩
  · exact absurd rfl h
  · rcases foldl_min_mem_or cs c with h0 | h0
    · exact List.mem_cons.2 (Or.inl (by simpa [intMinList] using h0))
    · exact List.mem_cons.2 (Or.inr (by simpa [intMinList] using h0))

/-- The source's `getMinimumSequenceNumber` computes exactly the minimum of the
tracked reference sequence numbers, with `-1` on an empty tracker. -/
theorem getMin_eq_intMinList (m : ClientSequenceNumberManager) :
    m.getMinimumSequenceNumber = intMinList (trackedRefSeqNumbers m) := by
  unfold ClientSequenceNumberManager.getMinimumSequenceNumber
    trackedRefSeqNumbers
  rcases hv : m.values with _ | ⟨c, cs⟩
  · simp [intMinList]
  · simp only [List.length_cons, List.map_cons]
    rw [if_pos (Nat.succ_pos _)]
    simp only [ClientSequenceNumberManager.heapPeek]
    rw [heapPeek_refSeq]
    simp [intMinList, List.foldl_map]

/-!
Preservation of the one-entry-per-client invariant.
-/

theorem nodupKeys_applyOp (m : ClientSequenceNumberManager) (op : TrackerOp)
    (h : nodupKeys m) : nodupKeys (applyOp m op) := by
  cases op with
  | upsert cid csn rsn ts ce sc nk md =>
    unfold nodupKeys at h ⊢
    rcases hg : mapGet m.clientNodeMap cid with _ | e
    · have hmap : (applyOp m (.upsert cid csn rsn ts ce sc nk md)).clientNodeMap
          = mapSet m.clientNodeMap cid
            { canEvict := ce, clientId := cid, clientSequenceNumber := csn,
              lastUpdate := ts, nack := nk, referenceSequenceNumber := rsn,
              scopes := sc, serverMetadata := md } := by
        simp [applyOp, ClientSequenceNumberManager.upsertClient, hg]
      rw [hmap,
        mapKeys_mapSet_of_not_mem _ _ _ ((mapGet_eq_none_iff _ _).1 hg)]
      simp only [List.nodup_append, List.nodup_singleton]
      refine ⟨h, trivial, ?_⟩
      intro x hx hx'
      have : x = cid := by simpa using hx'
      exact ((mapGet_eq_none_iff _ _).1 hg) (this ▸ hx)
    · have hmem : cid ∈ mapKeys m.clientNodeMap := by
        rw [← mapGet_isSome_iff, hg]
        rfl
      have hmap : (applyOp m (.upsert cid csn rsn ts ce sc nk md)).clientNodeMap
          = mapSet m.clientNodeMap cid
            { e with
              referenceSequenceNumber := rsn
              clientSequenceNumber := csn
              lastUpdate := ts
              nack := nk
              serverMetadata := if md.truthy then md else e.serverMetadata } := by
        simp [applyOp, ClientSequenceNumberManager.upsertClient, hg]
      rw [hmap, mapKeys_mapSet_of_mem _ _ _ hmem]
      exact h
  | remove cid =>
    unfold nodupKeys at h ⊢
    rcases hg : mapGet m.clientNodeMap cid with _ | e
    · have hmap : applyOp m (.remove cid) = m := by
        simp [applyOp, ClientSequenceNumberManager.removeClient, hg]
      rw [hmap]
      exact h
    · have hmap : (applyOp m (.remove cid)).clientNodeMap
          = mapDelete m.clientNodeMap cid := by
        simp [applyOp, ClientSequenceNumberManager.removeClient, hg]
      rw [hmap]
      exact nodup_mapKeys_mapDelete _ _ h

theorem nodupKeys_applyOps (ops : List TrackerOp)
    (m : ClientSequenceNumberManager) (h : nodupKeys m) :
    nodupKeys (applyOps m ops) := by
  induction ops generalizing m with
  | nil => exact h
  | cons op rest ih => exact ih (applyOp m op) (nodupKeys_applyOp m op h)

theorem nodupKeys_emptyManager : nodupKeys ClientSequenceNumberManager.emptyManager := by
  simp [nodupKeys, ClientSequenceNumberManager.emptyManager, mapKeys_nil]

theorem count_applyUpserts (calls : List UpsertArgs) :
    ∀ m : ClientSequenceNumberManager,
      (∀ c ∈ calls, mapGet m.clientNodeMap c.clientId = none) →
      (calls.map UpsertArgs.clientId).Nodup →
      (applyUpserts m calls).count = m.count + calls.length := by
  induction calls with
  | nil =>
    intro m _ _
    simp [applyUpserts]
  | cons c rest ih =>
    intro m hfresh hnd
    have hg : mapGet m.clientNodeMap c.clientId = none :=
      hfresh c (List.mem_cons_self c rest)
    have hmap : (applyUpsert m c).clientNodeMap
        = mapSet m.clientNodeMap c.clientId
          { canEvict := c.canEvict, clientId := c.clientId,
            clientSequenceNumber := c.clientSequenceNumber,
            lastUpdate := c.timestamp, nack := c.nack,
            referenceSequenceNumber := c.referenceSequenceNumber,
            scopes := c.scopes, serverMetadata := c.serverMetadata } := by
      simp [applyUpsert, ClientSequenceNumberManager.upsertClient, hg]
    have hcount : (applyUpsert m c).count = m.count + 1 := by
      unfold ClientSequenceNumberManager.count
      rw [hmap]
      exact length_mapSet_of_none _ _ _ hg
    have hkeys : mapKeys (applyUpsert m c).clientNodeMap
        = mapKeys m.clientNodeMap ++ [c.clientId] := by
      rw [hmap]
      exact mapKeys_mapSet_of_not_mem _ _ _ ((mapGet_eq_none_iff _ _).1 hg)
    rw [List.map_cons, List.nodup_cons] at hnd
    have hfresh' : ∀ x ∈ rest,
        mapGet (applyUpsert m c).clientNodeMap x.clientId = none := by
      intro x hx
      rw [mapGet_eq_none_iff, hkeys]
      simp only [List.mem_append, List.mem_singleton]
      rintro (hmem | hmem)
      · exact (mapGet_eq_none_iff _ _).1
          (hfresh x (List.mem_cons_of_mem _ hx)) hmem
      · exact hnd.1 (hmem ▸ List.mem_map_of_mem UpsertArgs.clientId hx)
    simp only [applyUpserts]
    rw [ih (applyUpsert m c) hfresh' hnd.2, hcount]
    simp only [List.length_cons]
    omega

/-!
Lemmas about the object-store model of `cloneValues`.
-/

theorem filterMap_ext_mem {α β : Type} (l : List α) (f g : α → Option β)
    (h : ∀ x ∈ l, f x = g x) : l.filterMap f = l.filterMap g := by
  induction l with
  | nil => rfl
  | cons x xs ih =>
    rw [List.filterMap_cons, List.filterMap_cons, h x (by simp),
      ih (fun y hy => h y (by simp [hy]))]

theorem cloneLoop_addrs_fresh :
    ∀ (entries : List (String × Nat))
      (store : List (Nat × IClientSequenceNumber)) (next : Nat),
      ∀ a ∈ (cloneLoop entries store next).1, next ≤ a := by
  intro entries
  induction entries with
  | nil =>
    intro store next a ha
    simp [cloneLoop] at ha
  | cons p rest ih =>
    intro store next a ha
    obtain ⟨cid0, a0⟩ := p
    rcases hg : mapGet store a0 with _ | v
    · simp only [cloneLoop, hg] at ha
      exact ih store next a ha
    · simp only [cloneLoop, hg] at ha
      rcases hr : cloneLoop rest (store ++ [(next, v)]) (next + 1)
        with ⟨addrs, store1, next1⟩
      rw [hr] at ha
      simp only [List.mem_cons] at ha
      rcases ha with rfl | ha
      · exact le_refl a
      · have := ih (store ++ [(next, v)]) (next + 1) a (by rw [hr]; exact ha)
        omega

theorem cloneLoop_store_extends :
    ∀ (entries : List (String × Nat))
      (store : List (Nat × IClientSequenceNumber)) (next : Nat),
      ∃ extra, (cloneLoop entries store next).2.1 = store ++ extra
        ∧ ∀ q ∈ extra, next ≤ q.1 := by
  intro entries
  induction entries with
  | nil =>
    intro store next
    exact ⟨[], by simp [cloneLoop], by simp⟩
  | cons p rest ih =>
    intro store next
    obtain ⟨cid0, a0⟩ := p
    rcases hg : mapGet store a0 with _ | v
    · simp only [cloneLoop, hg]
      exact ih store next
    · obtain ⟨extra, hst, hge⟩ := ih (store ++ [(next, v)]) (next + 1)
      rcases hr : cloneLoop rest (store ++ [(next, v)]) (next + 1)
        with ⟨addrs, store1, next1⟩
      rw [hr] at hst
      refine ⟨(next, v) :: extra, ?_, ?_⟩
      · simp only [cloneLoop, hg, hr]
        have hassoc : store ++ [(next, v)] ++ extra
            = store ++ (next, v) :: extra := by
          rw [List.append_assoc]
          rfl
        exact hst.trans hassoc
      · intro q hq
        rcases List.mem_cons.1 hq with rfl | hq'
        · exact le_refl _
        · have := hge q hq'
          omega

theorem cloneLoop_length :
    ∀ (entries : List (String × Nat))
      (store : List (Nat × IClientSequenceNumber)) (next : Nat),
      (∀ p ∈ entries, (mapGet store p.2).isSome = true) →
      (cloneLoop entries store next).1.length = entries.length := by
  intro entries
  induction entries with
  | nil =>
    intro store next _
    simp [cloneLoop]
  | cons p rest ih =>
    intro store next hall
    obtain ⟨cid0, a0⟩ := p
    rcases hg : mapGet store a0 with _ | v
    · have := hall (cid0, a0) (List.mem_cons_self _ _)
      rw [hg] at this
      simp at this
    · have hall' : ∀ q ∈ rest,
          (mapGet (store ++ [(next, v)]) q.2).isSome = true := by
        intro q hq
        have := hall q (List.mem_cons_of_mem _ hq)
        rcases h0 : mapGet store q.2 with _ | w
        · rw [h0] at this
          simp at this
        · rw [mapGet_append_left _ _ _ _ h0]
          rfl
      simp only [cloneLoop, hg]
      rcases hr : cloneLoop rest (store ++ [(next, v)]) (next + 1)
        with ⟨addrs, store1, next1⟩
      have := ih (store ++ [(next, v)]) (next + 1) hall'
      rw [hr] at this
      have h2 : addrs.length = rest.length := this
      simp only [List.length_cons]
      omega

/-!
Claim theorems.
-/

/-- C1: for every sequence of `upsertClient`/`removeClient` calls,
`getMinimumSequenceNumber()` returns the minimum `referenceSequenceNumber`
over all currently tracked clients when at least one client is tracked, and
`-1` when none are (`intMinList` is `-1` on the empty roster and otherwise the
true minimum of the tracked reference sequence numbers, see `intMinList_le`
and `intMinList_mem`). -/
theorem claim_C1_minimum_sequence_number (ops : List TrackerOp) :
    (applyOps ClientSequenceNumberManager.emptyManager ops).getMinimumSequenceNumber
      = intMinList
          (trackedRefSeqNumbers (applyOps ClientSequenceNumberManager.emptyManager ops)) :=
  getMin_eq_intMinList _

/-- C2: `upsertClient` returns `true` and inserts the new entry when the
client id is untracked, and returns `false` when the id is tracked, updating
the entry's `referenceSequenceNumber`, `clientSequenceNumber`, `lastUpdate`
timestamp and `nack` flag to the supplied values. -/
theorem claim_C2_upsertClient_insert_and_update
    (m : ClientSequenceNumberManager) (cid : String)
    (csn rsn ts : Int) (ce : Bool) (sc : List String) (nk : Bool)
    (md : JsValue) :
    ((m.upsertClient cid csn rsn ts ce sc nk md).1 = !(m.has cid))
    ∧ ((m.upsertClient cid csn rsn ts ce sc nk md).2.has cid = true)
    ∧ (m.get cid = none →
        (m.upsertClient cid csn rsn ts ce sc nk md).2.get cid
          = some { canEvict := ce, clientId := cid,
                   clientSequenceNumber := csn, lastUpdate := ts, nack := nk,
                   referenceSequenceNumber := rsn, scopes := sc,
                   serverMetadata := md })
    ∧ (∀ e, m.get cid = some e →
        ∃ e1, (m.upsertClient cid csn rsn ts ce sc nk md).2.get cid = some e1
          ∧ e1.referenceSequenceNumber = rsn ∧ e1.clientSequenceNumber = csn
          ∧ e1.lastUpdate = ts ∧ e1.nack = nk) := by
  rcases hg : mapGet m.clientNodeMap cid with _ | e
  · refine ⟨?_, ?_, ?_, ?_⟩
    · simp [ClientSequenceNumberManager.upsertClient,
        ClientSequenceNumberManager.has, hg]
    · simp [ClientSequenceNumberManager.upsertClient,
        ClientSequenceNumberManager.has, hg, mapGet_mapSet_self]
    · intro _
      simp [ClientSequenceNumberManager.upsertClient,
        ClientSequenceNumberManager.get, hg, mapGet_mapSet_self]
    · intro e he
      unfold ClientSequenceNumberManager.get at he
      rw [hg] at he
      exact Option.noConfusion he
  · refine ⟨?_, ?_, ?_, ?_⟩
    · simp [ClientSequenceNumberManager.upsertClient,
        ClientSequenceNumberManager.has, hg]
    · simp [ClientSequenceNumberManager.upsertClient,
        ClientSequenceNumberManager.has, hg, mapGet_mapSet_self]
    · intro h0
      unfold ClientSequenceNumberManager.get at h0
      rw [hg] at h0
      exact Option.noConfusion h0
    · intro e1 he
      refine ⟨{ e with
                referenceSequenceNumber := rsn,
                clientSequenceNumber := csn, lastUpdate := ts, nack := nk,
                serverMetadata :=
                  if md.truthy then md else e.serverMetadata },
        ?_, rfl, rfl, rfl, rfl⟩
      simp [ClientSequenceNumberManager.upsertClient,
        ClientSequenceNumberManager.get, hg, mapGet_mapSet_self]

/-- Witness for C2: re-upserting the tracked "X" with `csn=2`, `ref=3`
stores `referenceSequenceNumber = 3` as in the claim's example. -/
theorem claim_C2_witness :
    ∃ e1, (demoManagerX.upsertClient "X" 2 3 101 true [] false .undef).2.get "X"
        = some e1
      ∧ e1.referenceSequenceNumber = 3 ∧ e1.clientSequenceNumber = 2
      ∧ e1.lastUpdate = 101 ∧ e1.nack = false :=
  (claim_C2_upsertClient_insert_and_update demoManagerX "X" 2 3 101 true []
    false .undef).2.2.2 demoEntry (by decide)

/-- C3: `removeClient` on an untracked id returns `false` and leaves the state
unchanged; on a tracked id it returns `true`, `count()` decreases by exactly
one, and `has()` is `false` afterwards.  The state is assumed to satisfy the
one-entry-per-key invariant, which holds of every reachable state
(`nodupKeys_applyOps`, `nodupKeys_emptyManager`). -/
theorem claim_C3_removeClient (m : ClientSequenceNumberManager)
    (hm : nodupKeys m) (cid : String) :
    (m.has cid = false →
      (m.removeClient cid).1 = false ∧ (m.removeClient cid).2 = m)
    ∧ (m.has cid = true →
      (m.removeClient cid).1 = true
      ∧ (m.removeClient cid).2.count + 1 = m.count
      ∧ (m.removeClient cid).2.has cid = false) := by
  rcases hg : mapGet m.clientNodeMap cid with _ | e
  · constructor
    · intro _
      constructor
      · simp [ClientSequenceNumberManager.removeClient, hg]
      · simp [ClientSequenceNumberManager.removeClient, hg]
    · intro hhas
      unfold ClientSequenceNumberManager.has at hhas
      rw [hg] at hhas
      exact absurd hhas (by simp)
  · constructor
    · intro hhas
      unfold ClientSequenceNumberManager.has at hhas
      rw [hg] at hhas
      exact absurd hhas (by simp)
    · intro _
      have hmap : (m.removeClient cid).2.clientNodeMap
          = mapDelete m.clientNodeMap cid := by
        simp [ClientSequenceNumberManager.removeClient, hg]
      refine ⟨?_, ?_, ?_⟩
      · simp [ClientSequenceNumberManager.removeClient, hg]
      · unfold ClientSequenceNumberManager.count
        rw [hmap]
        exact length_mapDelete_of_some _ _ _ hg
      · unfold ClientSequenceNumberManager.has
        rw [hmap, mapGet_mapDelete_self _ _ hm]
        rfl

/-- Witness for C3: removing the tracked "X" from a one-client tracker. -/
theorem claim_C3_witness :
    (demoManagerX.removeClient "X").1 = true
    ∧ (demoManagerX.removeClient "X").2.count + 1 = demoManagerX.count
    ∧ (demoManagerX.removeClient "X").2.has "X" = false :=
  (claim_C3_removeClient demoManagerX
    (by show (mapKeys demoManagerX.clientNodeMap).Nodup; decide) "X").2
    (by decide)

/-- C4: every sequence of operations preserves the at-most-one-entry-per-key
invariant, and for every sequence of `upsertClient` calls with distinct client
ids and no removals, `count()` equals the number of ids inserted. -/
theorem claim_C4_unique_tracking :
    (∀ ops : List TrackerOp,
      nodupKeys (applyOps ClientSequenceNumberManager.emptyManager ops))
    ∧ (∀ calls : List UpsertArgs, (calls.map UpsertArgs.clientId).Nodup →
      (applyUpserts ClientSequenceNumberManager.emptyManager calls).count
        = calls.length) := by
  constructor
  · intro ops
    exact nodupKeys_applyOps ops _ nodupKeys_emptyManager
  · intro calls hnd
    have h := count_applyUpserts calls ClientSequenceNumberManager.emptyManager
      (fun c _ => rfl) hnd
    simpa [ClientSequenceNumberManager.count,
      ClientSequenceNumberManager.emptyManager] using h

/-- Witness for C4: two inserts with distinct ids give `count() = 2`. -/
theorem claim_C4_witness :
    (applyUpserts ClientSequenceNumberManager.emptyManager demoCalls).count = 2 := by
  rw [claim_C4_unique_tracking.2 demoCalls (by decide)]
  rfl

/-- C5: on an already-tracked client, `upsertClient` overwrites the stored
`serverMetadata` exactly when the supplied value is truthy — the source's
reading of "a new non-empty value was supplied" (`if (serverMetadata)`) — and
leaves it unchanged otherwise; in particular a caller supplying no value
(`undefined`, which is falsy) never clears previously stored metadata. -/
theorem claim_C5_serverMetadata (m : ClientSequenceNumberManager)
    (cid : String) (csn rsn ts : Int) (ce : Bool) (sc : List String)
    (nk : Bool) (md : JsValue) (e : IClientSequenceNumber)
    (he : m.get cid = some e) :
    ∃ e1, (m.upsertClient cid csn rsn ts ce sc nk md).2.get cid = some e1
      ∧ e1.serverMetadata = (if md.truthy then md else e.serverMetadata) := by
  unfold ClientSequenceNumberManager.get at he
  refine ⟨{ e with
            referenceSequenceNumber := rsn,
            clientSequenceNumber := csn, lastUpdate := ts, nack := nk,
            serverMetadata := if md.truthy then md else e.serverMetadata },
    ?_, rfl⟩
  simp [ClientSequenceNumberManager.upsertClient,
    ClientSequenceNumberManager.get, he, mapGet_mapSet_self]

/-- Witness for C5: supplying the truthy value `"meta"` overwrites the stored
metadata of the tracked "X". -/
theorem claim_C5_witness :
    ∃ e1, (demoManagerX.upsertClient "X" 2 3 101 true [] false
        (.str "meta")).2.get "X" = some e1
      ∧ e1.serverMetadata
          = (if (JsValue.str "meta").truthy then JsValue.str "meta"
            else demoEntry.serverMetadata) :=
  claim_C5_serverMetadata demoManagerX "X" 2 3 101 true [] false
    (.str "meta") demoEntry (by decide)

/-- C6 counterexample: two `writeCheckpoint` calls that differ only in their
`reason` argument issue the identical storage call, so the reason does not
reach the storage call, contradicting "every piece of information in its
arguments reaches the storage call". -/
theorem claim_C6_counterexample :
    deliWriteCheckpoint "t1" "d1" demoDeliState true CheckpointReason.manual
      = deliWriteCheckpoint "t1" "d1" demoDeliState true CheckpointReason.shutdown
    ∧ ¬(CheckpointReason.manual = CheckpointReason.shutdown) :=
  ⟨rfl, by decide⟩

/-- C6 amended: `writeCheckpoint(checkpoint, isLocal, reason)` submits the
payload to the repository keyed by `(documentId, tenantId, "deli")` and tagged
with the tier flag `isLocal`; the `reason` argument is dropped by the
implementation and does not reach the storage call. -/
theorem claim_C6_amended_write_call (tenantId documentId : String)
    (checkpoint : IDeliState) (isLocal : Bool) (reason : CheckpointReason) :
    deliWriteCheckpoint tenantId documentId checkpoint isLocal reason
      = StorageCall.writeCheckpointToCollection documentId tenantId "deli"
          checkpoint isLocal :=
  rfl

/-- C7: the promise returned by `writeCheckpoint` is exactly the service's
result on the issued `writeCheckpointToCollection` call, so it rejects if and
only if the underlying call fails, and a failure is never swallowed. -/
theorem claim_C7_write_failure_propagates
    (svc : StorageCall → Except CheckpointError Unit)
    (tenantId documentId : String) (checkpoint : IDeliState)
    (isLocal : Bool) (reason : CheckpointReason) :
    deliWriteCheckpointRun svc tenantId documentId checkpoint isLocal reason
      = svc (StorageCall.writeCheckpointToCollection documentId tenantId
          "deli" checkpoint isLocal)
    ∧ ∀ err : CheckpointError,
        (deliWriteCheckpointRun svc tenantId documentId checkpoint isLocal
            reason = Except.error err
          ↔ svc (StorageCall.writeCheckpointToCollection documentId tenantId
              "deli" checkpoint isLocal) = Except.error err) :=
  ⟨rfl, fun _ => Iff.rfl⟩

/-- C8: `cloneValues()` yields one copy per tracked client, every returned
object is distinct from every internal node, and mutating any returned object
leaves subsequent `get`, `peek` and `getMinimumSequenceNumber` results
unchanged. -/
theorem claim_C8_cloneValues_snapshot (s : ManagerWithStore)
    (hwf : WFStore s) :
    (cloneValuesA s).1.length = s.clientNodeMap.length
    ∧ ∀ a ∈ (cloneValuesA s).1,
      (∀ p ∈ s.clientNodeMap, p.2 ≠ a)
      ∧ ∀ v : IClientSequenceNumber,
          (∀ cid, getA (writeAddr (cloneValuesA s).2 a v) cid = getA s cid)
          ∧ peekA (writeAddr (cloneValuesA s).2 a v) = peekA s
          ∧ getMinA (writeAddr (cloneValuesA s).2 a v) = getMinA s := by
  rcases hr : cloneLoop s.clientNodeMap s.store s.next
    with ⟨addrs, store1, next1⟩
  have hclone : cloneValuesA s = (addrs, ⟨store1, s.clientNodeMap, next1⟩) := by
    unfold cloneValuesA
    rw [hr]
  obtain ⟨extra, hst, hext⟩ :=
    cloneLoop_store_extends s.clientNodeMap s.store s.next
  rw [hr] at hst
  have hst1 : store1 = s.store ++ extra := hst
  constructor
  · rw [hclone]
    have hlen := cloneLoop_length s.clientNodeMap s.store s.next
      (fun p hp => (hwf p hp).2)
    rw [hr] at hlen
    exact hlen
  · rw [hclone]
    intro a ha
    have hfresh : s.next ≤ a := by
      have := cloneLoop_addrs_fresh s.clientNodeMap s.store s.next a
        (by rw [hr]; exact ha)
      exact this
    have hread : ∀ (v : IClientSequenceNumber) (b : Nat), b < s.next →
        (mapGet s.store b).isSome = true →
        mapGet (mapSet store1 a v) b = mapGet s.store b := by
      intro v b hb hsome
      have hba : b ≠ a := by omega
      rw [mapGet_mapSet_ne _ _ _ _ hba, hst1]
      rcases hO : mapGet s.store b with _ | v0
      · rw [hO] at hsome
        exact absurd hsome (by simp)
      · exact mapGet_append_left _ _ _ _ hO
    constructor
    · intro p hp
      have := (hwf p hp).1
      omega
    · intro v
      have hvals : valuesA (writeAddr ⟨store1, s.clientNodeMap, next1⟩ a v)
          = valuesA s := by
        unfold valuesA writeAddr
        apply filterMap_ext_mem
        intro p hp
        obtain ⟨hb, hsome⟩ := hwf p hp
        exact hread v p.2 hb hsome
      refine ⟨?_, ?_, ?_⟩
      · intro cid
        unfold getA writeAddr
        rcases hm : mapGet s.clientNodeMap cid with _ | b
        · simp [hm]
        · simp only [hm, Option.some_bind]
          obtain ⟨hb, hsome⟩ := hwf (cid, b) (mapGet_mem _ _ _ hm)
          exact hread v b hb hsome
      · unfold peekA
        rw [hvals]
      · unfold getMinA peekA
        rw [hvals]

/-- Witness for C8: in the one-client store, the clone's address 1 is fresh
and mutating it leaves `get("X")` unchanged. -/
theorem claim_C8_witness :
    (cloneValuesA demoStore).1.length = demoStore.clientNodeMap.length
    ∧ (∀ p ∈ demoStore.clientNodeMap, p.2 ≠ 1)
    ∧ getA (writeAddr (cloneValuesA demoStore).2 1 demoEntry2) "X"
        = getA demoStore "X" := by
  have h := claim_C8_cloneValues_snapshot demoStore
    (by show ∀ p ∈ demoStore.clientNodeMap,
          p.2 < demoStore.next ∧ (mapGet demoStore.store p.2).isSome = true
        decide)
  have h1 := h.2 1 (by decide)
  exact ⟨h.1, h1.1, (h1.2 demoEntry2).1 "X"⟩

/-- C9 counterexample: insert "X" with scopes `["a"]`, re-upsert with scopes
`["b"]`: the stored scopes are still `["a"]`, not the supplied `["b"]` — the
update path of `upsertClient` does not write `scopes`. -/
theorem claim_C9_counterexample :
    (scopesSecond.get "X").map IClientSequenceNumber.scopes = some ["a"]
    ∧ ¬((scopesSecond.get "X").map IClientSequenceNumber.scopes
        = some ["b"]) := by
  constructor
  · decide
  · decide

/-- C9 amended: the stored scopes (and `canEvict`) of a tracked client are the
ones supplied when the client was first inserted; `upsertClient` on an
already-tracked client leaves them unchanged, whatever scopes it supplies. -/
theorem claim_C9_amended_scopes (m : ClientSequenceNumberManager)
    (cid : String) (csn rsn ts : Int) (ce : Bool) (sc : List String)
    (nk : Bool) (md : JsValue) (e : IClientSequenceNumber)
    (he : m.get cid = some e) :
    ∃ e1, (m.upsertClient cid csn rsn ts ce sc nk md).2.get cid = some e1
      ∧ e1.scopes = e.scopes ∧ e1.canEvict = e.canEvict := by
  unfold ClientSequenceNumberManager.get at he
  refine ⟨{ e with
            referenceSequenceNumber := rsn,
            clientSequenceNumber := csn, lastUpdate := ts, nack := nk,
            serverMetadata := if md.truthy then md else e.serverMetadata },
    ?_, rfl, rfl⟩
  simp [ClientSequenceNumberManager.upsertClient,
    ClientSequenceNumberManager.get, he, mapGet_mapSet_self]

/-- Witness for the amended C9: re-upserting "X" with scopes `["b"]` keeps
the insertion-time scopes. -/
theorem claim_C9_amended_witness :
    ∃ e1, (demoManagerX.upsertClient "X" 2 3 101 true ["b"] false
        .undef).2.get "X" = some e1
      ∧ e1.scopes = demoEntry.scopes ∧ e1.canEvict = demoEntry.canEvict :=
  claim_C9_amended_scopes demoManagerX "X" 2 3 101 true ["b"] false .undef
    demoEntry (by decide)

/-- C10: `deleteCheckpoint` is independent of its `checkpointParams` argument:
any two parameter values produce the identical
`removeCheckpointFromCollection(documentId, tenantId, "deli", isLocal)` call;
the `clear` flag and `reason` inside the parameters are never inspected. -/
theorem claim_C10_deleteCheckpoint_ignores_params
    (tenantId documentId : String) (p1 p2 : ICheckpointParams)
    (isLocal : Bool) :
    deliDeleteCheckpoint tenantId documentId p1 isLocal
      = deliDeleteCheckpoint tenantId documentId p2 isLocal
    ∧ deliDeleteCheckpoint tenantId documentId p1 isLocal
      = StorageCall.removeCheckpointFromCollection documentId tenantId "deli"
          isLocal :=
  ⟨rfl, rfl⟩
